import Mathlib

/-!
# imsg: framed messages over a byte stream

A shallow embedding of `imsg.go` (package `imsg`): the 16-byte `Header`
record with its little-endian codec, and the `Conn` wrapper whose `Send`
writes one frame and whose `Recv` reads one frame.

Machine integers are natural numbers below `2^w` (`Fin (2^w)`), every
conversion between widths is an explicit `% 2^w`.  The byte stream behind a
connection is a script of the results that its successive `Read` calls
produce, together with a log of the `Write` calls issued on it.
-/

namespace Imsg

/-! ## Machine integers -/

abbrev Byte := Fin 256
abbrev U16 := Fin 65536
abbrev U32 := Fin 4294967296

/-- Conversion `byte(v)`: the low eight bits of `v`. -/
def toByte (v : Nat) : Byte := ⟨v % 256, Nat.mod_lt _ (by decide)⟩

/-- Conversion `uint16(v)`: the low sixteen bits of `v`. -/
def toU16 (v : Nat) : U16 := ⟨v % 65536, Nat.mod_lt _ (by decide)⟩

/-! ## Errors -/

/-- Error values that the package returns or passes on: the two sentinels of
package `io`, the error made by `Send`, and any other error value of the
underlying stream (identified by a number). -/
inductive Error where
  | EOF
  | ErrUnexpectedEOF
  | tooLarge
  | other (code : Nat)
  deriving DecidableEq, Repr

deriving instance DecidableEq for Except

/-! ## Header and constants -/

/-- The struct `Header`; the field `Type` is spelled `Typ`. -/
structure Header where
  Typ : U32
  Length : U16
  Flags : U16
  PeerID : U32
  PID : U32
  deriving DecidableEq, Repr

def HeaderSize : Nat := 4 + 2 + 2 + 4 + 4

def MaxMessageSize : Nat := 16384

/-! ## `encoding/binary`, little endian -/

/-- Bytes of `binary.LittleEndian.PutUint16`. -/
def putUint16 (v : U16) : List Byte :=
  [toByte v.val, toByte (v.val / 256)]

/-- Bytes of `binary.LittleEndian.PutUint32`. -/
def putUint32 (v : U32) : List Byte :=
  [toByte v.val, toByte (v.val / 256), toByte (v.val / 65536), toByte (v.val / 16777216)]

/-- Value of `binary.LittleEndian.Uint16` on two bytes. -/
def getUint16 (b0 b1 : Byte) : U16 :=
  ⟨b0.val + 256 * b1.val, by
    have h0 := b0.isLt
    have h1 := b1.isLt
    omega⟩

/-- Value of `binary.LittleEndian.Uint32` on four bytes. -/
def getUint32 (b0 b1 b2 b3 : Byte) : U32 :=
  ⟨b0.val + 256 * b1.val + 65536 * b2.val + 16777216 * b3.val, by
    have h0 := b0.isLt
    have h1 := b1.isLt
    have h2 := b2.isLt
    have h3 := b3.isLt
    omega⟩

/-- Little-endian value of a byte string of any length (used to state the
wire layout; the codec itself goes through `putUint*` and `getUint*`). -/
def leValue : List Byte → Nat
  | [] => 0
  | b :: bs => b.val + 256 * leValue bs

/-- The slice `b[i : i+n]`. -/
def slice (b : List Byte) (i n : Nat) : List Byte := (b.drop i).take n

/-! ## Streams -/

/-- One result of a `Read` call as the stream would give it to a large enough
buffer: the bytes delivered and the error reported with them (`none` is
`nil`). -/
structure ReadEvent where
  data : List Byte
  err : Option Error
  deriving DecidableEq, Repr

/-- The read side of a stream: the results its next `Read` calls produce.
When the script is exhausted the stream is closed and `Read` reports `EOF`. -/
abbrev Reader := List ReadEvent

/-- The call `r.Read(p)` with `len(p) = k`: the bytes stored in `p[:n]`, the
error, and the reader afterwards.  An event that does not fit in `p` hands
over `k` bytes without error and keeps the rest for the next call. -/
def Read : Reader → Nat → List Byte × Option Error × Reader
  | [], _ => ([], some Error.EOF, [])
  | ev :: rest, k =>
    if ev.data.length ≤ k then (ev.data, ev.err, rest)
    else (ev.data.take k, none, ⟨ev.data.drop k, ev.err⟩ :: rest)

/-- The loop `for n < min && err == nil { nn, err = r.Read(buf[n:]); n += nn }`
of `io.ReadAtLeast` with `len(buf) = min`; `buf` holds the `n` bytes read so
far.  Each iteration is one `Read` into the `min - n` bytes left; after a
`Read` that takes only part of an event the buffer is full, so the loop ends
there (`readLoop_step` states the loop in terms of `Read`). -/
def readLoop (min : Nat) : Reader → List Byte → List Byte × Option Error × Reader
  | [], buf =>
    if buf.length < min then (buf, some Error.EOF, [])
    else (buf, none, [])
  | ev :: rest, buf =>
    if buf.length < min then
      if ev.data.length ≤ min - buf.length then
        match ev.err with
        | none => readLoop min rest (buf ++ ev.data)
        | some e => (buf ++ ev.data, some e, rest)
      else
        (buf ++ ev.data.take (min - buf.length), none,
          ⟨ev.data.drop (min - buf.length), ev.err⟩ :: rest)
    else (buf, none, ev :: rest)

/-- The call `io.ReadFull(r, buf)` with `len(buf) = n`, that is
`io.ReadAtLeast(r, buf, n)`: the loop, then an error is dropped when the
buffer is full and `EOF` after some bytes becomes `ErrUnexpectedEOF`. -/
def ReadFull (r : Reader) (n : Nat) : List Byte × Option Error × Reader :=
  let res := readLoop n r []
  if res.1.length ≥ n then (res.1, none, res.2.2)
  else if res.1.length > 0 ∧ res.2.1 = some Error.EOF then
    (res.1, some Error.ErrUnexpectedEOF, res.2.2)
  else res

/-- The reader `bytes.NewReader(b)`: all of `b` is available, then `EOF`. -/
def bytesReader (b : List Byte) : Reader :=
  if b.length = 0 then [] else [⟨b, none⟩]

/-- The decoding `d.value(v)` of `binary.Read` for a `Header`: the fields in
declaration order from a buffer of `HeaderSize` bytes. -/
def decodeHeader (b : List Byte) : Header :=
  { Typ := getUint32 (b.getD 0 0) (b.getD 1 0) (b.getD 2 0) (b.getD 3 0)
    Length := getUint16 (b.getD 4 0) (b.getD 5 0)
    Flags := getUint16 (b.getD 6 0) (b.getD 7 0)
    PeerID := getUint32 (b.getD 8 0) (b.getD 9 0) (b.getD 10 0) (b.getD 11 0)
    PID := getUint32 (b.getD 12 0) (b.getD 13 0) (b.getD 14 0) (b.getD 15 0) }

/-- The call `binary.Read(r, binary.LittleEndian, hdr)` on a `bytes.Reader`
over `b`: `io.ReadFull` of `HeaderSize` bytes, then the decoding. -/
def binaryRead (b : List Byte) : Except Error Header :=
  match ReadFull (bytesReader b) HeaderSize with
  | (_, some e, _) => .error e
  | (buf, none, _) => .ok (decodeHeader buf)

/-! ## The header codec -/

/-- Method `Header.Marshal`: `binary.Write` of the struct into a fresh buffer,
the fields in declaration order, little endian. -/
def Header.Marshal (h : Header) : List Byte :=
  putUint32 h.Typ ++ putUint16 h.Length ++ putUint16 h.Flags ++ putUint32 h.PeerID
    ++ putUint32 h.PID

/-- Function `UnmarshalHeader`. -/
def UnmarshalHeader (b : List Byte) : Except Error Header :=
  match binaryRead b with
  | .error err => .error err
  | .ok hdr => .ok hdr

/-! ## Connections -/

/-- The stream behind a connection (`io.ReadWriteCloser`): its read side, the
results that its next `Write` calls return (`none` is `nil`; an exhausted
list means the write succeeds), and the buffers of the `Write` calls issued
on it so far, oldest first. -/
structure Stream where
  rd : Reader
  wres : List (Option Error)
  written : List (List Byte)
  deriving DecidableEq, Repr

/-- The error that the next `Write` call on the stream returns. -/
def Stream.nextWrite (s : Stream) : Option Error :=
  match s.wres with
  | [] => none
  | r :: _ => r

/-- The call `s.Write(b)`: the error returned and the stream afterwards. -/
def Write (s : Stream) (b : List Byte) : Option Error × Stream :=
  (s.nextWrite, { s with wres := s.wres.tail, written := s.written ++ [b] })

/-- The struct `Conn`. -/
structure Conn where
  rwc : Stream
  pid : U32
  deriving DecidableEq, Repr

/-- Function `NewConn`; `getpid` is the value of `os.Getpid()`. -/
def NewConn (c : Stream) (getpid : Nat) : Conn :=
  { rwc := c, pid := ⟨getpid % 4294967296, Nat.mod_lt _ (by decide)⟩ }

/-- Method `Conn.Send`: the error returned (`none` is `nil`) and the
connection afterwards.  The arguments `flags` and `peerid` are not used by
the body; the composite literal leaves `Flags` and `PeerID` at zero. -/
def Conn.Send (ic : Conn) (typ : U32) (_flags : U16) (_peerid : U16) (data : List Byte) :
    Option Error × Conn :=
  if data.length > MaxMessageSize then (some Error.tooLarge, ic)
  else
    let msglen := HeaderSize + data.length
    let hdr : Header :=
      { Typ := typ, Length := toU16 msglen, Flags := 0, PeerID := 0, PID := ic.pid }
    let b := hdr.Marshal ++ data
    let w := Write ic.rwc b
    match w.1 with
    | some err => (some err, { ic with rwc := w.2 })
    | none => (none, { ic with rwc := w.2 })

/-- What `Conn.Recv` does: it returns a header and data with a `nil` error,
it returns an error, or `make([]byte, datalen)` aborts the program on a
negative `datalen`. -/
inductive RecvResult where
  | ok (hdr : Header) (data : List Byte)
  | error (err : Error)
  | panic
  deriving DecidableEq, Repr

/-- Method `Conn.Recv`: the outcome and the connection afterwards.  The
header comes from one `Read` into a buffer of `HeaderSize` bytes, decoded
from `hb[:n]`; the data from `io.ReadFull`. -/
def Conn.Recv (ic : Conn) : RecvResult × Conn :=
  let r1 := Read ic.rwc.rd HeaderSize
  let ic1 : Conn := { ic with rwc := { ic.rwc with rd := r1.2.2 } }
  match r1.2.1 with
  | some err => (.error err, ic1)
  | none =>
    match UnmarshalHeader r1.1 with
    | .error err => (.error err, ic1)
    | .ok hdr =>
      if hdr.Length.val > 0 then
        let datalen : Int := (hdr.Length.val : Int) - (HeaderSize : Int)
        if datalen < 0 then (.panic, ic1)
        else
          let r2 := ReadFull r1.2.2 datalen.toNat
          let ic2 : Conn := { ic with rwc := { ic.rwc with rd := r2.2.2 } }
          match r2.2.1 with
          | some err => (.error err, ic2)
          | none => (.ok hdr r2.1, ic2)
      else (.ok hdr [], ic1)

/-- All bytes that a reader still delivers, in order. -/
def contents (r : Reader) : List Byte := (r.map ReadEvent.data).flatten

/-- A reader none of whose events reports an error. -/
abbrev errorFree (r : Reader) : Prop := ∀ ev ∈ r, ev.err = none

/-- The bytes that a reader delivers before it ends or reports an error: the
data of its events up to and including the first one that carries an
error. -/
def untilError : Reader → List Byte
  | [] => []
  | ev :: rest =>
    match ev.err with
    | some _ => ev.data
    | none => ev.data ++ untilError rest

/-- The read side that the peer of a reliable stream sees once the given
writes have been made and nothing has been read: every byte written is
available, and a read returns all the requested bytes that are available. -/
def pipe (written : List (List Byte)) : Reader := bytesReader written.flatten

/-- The peer end of a connection over a reliable stream: it reads what the
connection wrote. -/
def peerOf (ic : Conn) (pid : U32) : Conn :=
  { rwc := { rd := pipe ic.rwc.written, wres := [], written := [] }, pid := pid }

/-- The arguments of one call of `Send`. -/
structure Msg where
  typ : U32
  flags : U16
  peerid : U16
  data : List Byte
  deriving DecidableEq, Repr

/-- The header that `Send` builds for a message on a connection with process
id `pid`. -/
def sentHeader (pid : U32) (m : Msg) : Header :=
  { Typ := m.typ, Length := toU16 (HeaderSize + m.data.length), Flags := 0, PeerID := 0,
    PID := pid }

/-- The frame that `Send` writes for a message: header bytes, then payload. -/
def frameOf (pid : U32) (m : Msg) : List Byte := (sentHeader pid m).Marshal ++ m.data

/-- Successive calls of `Send`, one for each message in order: the errors
they return and the connection afterwards. -/
def sendAll : Conn → List Msg → List (Option Error) × Conn
  | ic, [] => ([], ic)
  | ic, m :: ms =>
    let r := ic.Send m.typ m.flags m.peerid m.data
    let rs := sendAll r.2 ms
    (r.1 :: rs.1, rs.2)

/-- Successive calls of `Recv`, `n` of them: what each returns together with
the number of bytes it took from the stream, and the connection after the
last. -/
def recvAll : Nat → Conn → List (RecvResult × Nat) × Conn
  | 0, ic => ([], ic)
  | n + 1, ic =>
    let r := ic.Recv
    let rs := recvAll n r.2
    ((r.1, (contents ic.rwc.rd).length - (contents r.2.rwc.rd).length) :: rs.1, rs.2)

end Imsg

/-! ## Lemmas on the codec -/

namespace Imsg

theorem Marshal_length (h : Header) : h.Marshal.length = 16 := by
  simp [Header.Marshal, putUint32, putUint16]

theorem getUint16_put (v : U16) : getUint16 (toByte v.val) (toByte (v.val / 256)) = v := by
  apply Fin.ext
  have := v.isLt
  simp only [getUint16, toByte]
  omega

theorem getUint32_put (v : U32) :
    getUint32 (toByte v.val) (toByte (v.val / 256)) (toByte (v.val / 65536))
      (toByte (v.val / 16777216)) = v := by
  apply Fin.ext
  have := v.isLt
  simp only [getUint32, toByte]
  omega

theorem decodeHeader_Marshal (h : Header) (t : List Byte) : decodeHeader (h.Marshal ++ t) = h := by
  cases h
  simp [decodeHeader, Header.Marshal, putUint32, putUint16, getUint16_put, getUint32_put]

/-- What `io.ReadFull` returns on a `bytes.Reader`. -/
theorem ReadFull_bytesReader (b : List Byte) (n : Nat) (hn : 0 < n) :
    ReadFull (bytesReader b) n =
      if b.length = 0 then ([], some Error.EOF, [])
      else if b.length < n then (b, some Error.ErrUnexpectedEOF, [])
      else (b.take n, none, bytesReader (b.drop n)) := by
  by_cases h0 : b.length = 0
  · have hn' : ¬ n = 0 := by omega
    simp [ReadFull, bytesReader, h0, readLoop, hn, hn']
  · by_cases h1 : b.length < n
    · have h2 : b.length ≤ n := by omega
      have h3 : ¬ n ≤ b.length := by omega
      have h4 : 0 < b.length := by omega
      simp [ReadFull, bytesReader, h0, readLoop, hn, h1, h2, h3, h4]
    · by_cases h2 : b.length = n
      · subst h2
        simp [ReadFull, bytesReader, h0, readLoop, hn]
      · have h3 : ¬ b.length ≤ n := by omega
        have h4 : n ≤ b.length := by omega
        have h5 : ¬ b.length - n = 0 := by omega
        simp [ReadFull, bytesReader, h0, readLoop, hn, h1, h3, h4, h5]

/-- The three cases of `UnmarshalHeader`: `EOF` on no bytes, `ErrUnexpectedEOF`
on fewer than `HeaderSize`, the decoding of the first `HeaderSize` bytes
otherwise. -/
theorem UnmarshalHeader_eq (b : List Byte) :
    UnmarshalHeader b =
      if b.length = 0 then .error Error.EOF
      else if b.length < HeaderSize then .error Error.ErrUnexpectedEOF
      else .ok (decodeHeader (b.take HeaderSize)) := by
  unfold UnmarshalHeader binaryRead
  rw [ReadFull_bytesReader b HeaderSize (by decide)]
  by_cases h0 : b.length = 0
  · simp [h0]
  · by_cases h1 : b.length < HeaderSize
    · simp [h0, h1]
    · simp [h0, h1]

theorem UnmarshalHeader_Marshal_append (h : Header) (t : List Byte) :
    UnmarshalHeader (h.Marshal ++ t) = .ok h := by
  have hl := Marshal_length h
  have h0 : ¬ (h.Marshal ++ t).length = 0 := by
    rw [List.length_append]; omega
  have h1 : ¬ (h.Marshal ++ t).length < HeaderSize := by
    rw [List.length_append]; simp only [HeaderSize]; omega
  have ht : (h.Marshal ++ t).take HeaderSize = h.Marshal := by
    rw [List.take_append_of_le_length (by rw [hl]; decide), List.take_of_length_le (by rw [hl]; decide)]
  rw [UnmarshalHeader_eq, if_neg h0, if_neg h1, ht]
  have := decodeHeader_Marshal h []
  rw [List.append_nil] at this
  rw [this]

theorem take_Marshal_append (h : Header) (t : List Byte) :
    (h.Marshal ++ t).take HeaderSize = h.Marshal := by
  have hl := Marshal_length h
  rw [List.take_append_of_le_length (by rw [hl]; decide), List.take_of_length_le (by rw [hl]; decide)]

theorem drop_Marshal_append (h : Header) (t : List Byte) :
    (h.Marshal ++ t).drop HeaderSize = t := by
  have hl := Marshal_length h
  rw [List.drop_append_of_le_length (by rw [hl]; decide), List.drop_of_length_le (by rw [hl]; decide)]
  rfl

/-! ## Lemmas on `Send` -/

/-- What `Send` does with a payload of at most `MaxMessageSize` bytes: one
`Write` of header and payload, whose error it returns. -/
theorem Send_accept (ic : Conn) (typ : U32) (flags peerid : U16) (data : List Byte)
    (h : data.length ≤ MaxMessageSize) :
    ic.Send typ flags peerid data =
      (ic.rwc.nextWrite,
        { ic with rwc := { ic.rwc with
            wres := ic.rwc.wres.tail
            written := ic.rwc.written ++
              [Header.Marshal { Typ := typ, Length := toU16 (HeaderSize + data.length),
                                Flags := 0, PeerID := 0, PID := ic.pid } ++ data] } }) := by
  have h' : ¬ data.length > MaxMessageSize := by omega
  unfold Conn.Send
  simp only [h', if_false, Write]
  cases hw : ic.rwc.nextWrite <;> simp

theorem toU16_frame (n : Nat) (h : n ≤ MaxMessageSize) :
    (toU16 (HeaderSize + n)).val = HeaderSize + n := by
  simp only [toU16, HeaderSize, MaxMessageSize] at *
  omega

/-! ## Lemmas on readers without errors -/

/-- The function `readLoop` is the loop of `io.ReadAtLeast`: while fewer than
`min` bytes are in and no error was reported, one more `Read` into the rest
of the buffer. -/
theorem readLoop_step (min : Nat) (r : Reader) (buf : List Byte) :
    readLoop min r buf =
      if buf.length < min then
        match (Read r (min - buf.length)).2.1 with
        | none => readLoop min (Read r (min - buf.length)).2.2 (buf ++ (Read r (min - buf.length)).1)
        | some e => (buf ++ (Read r (min - buf.length)).1, some e, (Read r (min - buf.length)).2.2)
      else (buf, none, r) := by
  cases r with
  | nil =>
    by_cases h : buf.length < min <;> simp [readLoop, Read, h]
  | cons ev rest =>
    by_cases h : buf.length < min
    · by_cases h2 : ev.data.length ≤ min - buf.length
      · simp only [readLoop, Read, h, h2, if_true]
      · have h3 : ¬ (buf ++ List.take (min - buf.length) ev.data).length < min := by
          rw [List.length_append, List.length_take]
          omega
        simp only [readLoop, Read, h, h2, if_true, if_false, h3]
    · simp only [readLoop, h, if_false]

theorem contents_nil : contents [] = [] := rfl

theorem contents_cons (ev : ReadEvent) (r : Reader) :
    contents (ev :: r) = ev.data ++ contents r := by
  simp [contents]

/-- On a reader without errors that holds enough bytes the loop fills the
buffer with the next bytes and leaves the others in the reader. -/
theorem readLoop_errorFree (min : Nat) (r : Reader) :
    ∀ buf : List Byte, errorFree r → min ≤ buf.length + (contents r).length →
      (readLoop min r buf).1 = buf ++ (contents r).take (min - buf.length) ∧
      (readLoop min r buf).2.1 = none ∧
      contents (readLoop min r buf).2.2 = (contents r).drop (min - buf.length) ∧
      errorFree (readLoop min r buf).2.2 := by
  induction r with
  | nil =>
    intro buf _ hlen
    have h : ¬ buf.length < min := by
      simp [contents] at hlen
      omega
    simp [readLoop, h, contents, errorFree]
  | cons ev rest ih =>
    intro buf hef hlen
    have hev : ev.err = none := hef ev (List.mem_cons_self _ _)
    have hrest : errorFree rest := fun e he => hef e (List.mem_cons_of_mem _ he)
    rw [contents_cons] at hlen ⊢
    by_cases h1 : buf.length < min
    · by_cases h2 : ev.data.length ≤ min - buf.length
      · have hlen' : min ≤ (buf ++ ev.data).length + (contents rest).length := by
          simp at hlen ⊢
          omega
        obtain ⟨a, b, c, d⟩ := ih (buf ++ ev.data) hrest hlen'
        simp only [readLoop, h1, h2, if_true, hev]
        refine ⟨?_, b, ?_, d⟩
        · rw [a, List.take_append_eq_append_take, List.take_of_length_le h2]
          simp only [List.length_append, List.append_assoc]
          congr 3
          omega
        · rw [c, List.drop_append_eq_append_drop, List.drop_of_length_le h2]
          simp only [List.length_append, List.nil_append]
          congr 1
          omega
      · have h3 : min - buf.length ≤ ev.data.length := by omega
        simp only [readLoop, h1, h2, if_true, if_false]
        refine ⟨?_, trivial, ?_, ?_⟩
        · rw [List.take_append_of_le_length h3]
        · rw [contents_cons, List.drop_append_of_le_length h3]
        · intro e he
          rcases List.mem_cons.mp he with rfl | he
          · exact hev
          · exact hrest e he
    · have h0 : min - buf.length = 0 := by omega
      simp only [readLoop, h1, if_false, h0, List.take_zero, List.drop_zero, List.append_nil,
        contents_cons]
      exact ⟨trivial, trivial, trivial, hef⟩

theorem ReadFull_errorFree (r : Reader) (n : Nat) (hef : errorFree r)
    (hlen : n ≤ (contents r).length) :
    (ReadFull r n).1 = (contents r).take n ∧ (ReadFull r n).2.1 = none ∧
      contents (ReadFull r n).2.2 = (contents r).drop n ∧ errorFree (ReadFull r n).2.2 := by
  obtain ⟨a, b, c, d⟩ := readLoop_errorFree n r [] hef (by simpa using hlen)
  simp only [List.length_nil, Nat.sub_zero, List.nil_append] at a c
  have hl : (readLoop n r []).1.length ≥ n := by
    rw [a, List.length_take]
    omega
  simp only [ReadFull, hl, if_true]
  exact ⟨a, trivial, c, d⟩

theorem Read_header (ev : ReadEvent) (rest : Reader) (k : Nat) (hef : errorFree (ev :: rest))
    (hk : k ≤ ev.data.length) :
    (Read (ev :: rest) k).1 = (contents (ev :: rest)).take k ∧ (Read (ev :: rest) k).2.1 = none ∧
      contents (Read (ev :: rest) k).2.2 = (contents (ev :: rest)).drop k ∧
      errorFree (Read (ev :: rest) k).2.2 := by
  have hev : ev.err = none := hef ev (List.mem_cons_self _ _)
  have hrest : errorFree rest := fun e he => hef e (List.mem_cons_of_mem _ he)
  rw [contents_cons]
  by_cases h : ev.data.length ≤ k
  · have hk' : ev.data.length = k := by omega
    simp only [Read, h, if_true]
    refine ⟨?_, hev, ?_, hrest⟩
    · rw [List.take_append_of_le_length hk, List.take_of_length_le h]
    · rw [List.drop_append_of_le_length hk, List.drop_of_length_le h, List.nil_append]
  · simp only [Read, h, if_false]
    refine ⟨?_, trivial, ?_, ?_⟩
    · rw [List.take_append_of_le_length hk]
    · rw [contents_cons, List.drop_append_of_le_length hk]
    · intro e he
      rcases List.mem_cons.mp he with rfl | he
      · exact hev
      · exact hrest e he


/-- What `Recv` returns when the first read delivers the whole header, the
header declares at least `HeaderSize` bytes and the stream holds them. -/
theorem Recv_errorFree (ic : Conn) (ev : ReadEvent) (rest : Reader) (h : Header)
    (hrd : ic.rwc.rd = ev :: rest) (hfirst : HeaderSize ≤ ev.data.length)
    (hef : errorFree ic.rwc.rd)
    (hdec : UnmarshalHeader ((contents ic.rwc.rd).take HeaderSize) = .ok h)
    (hge : HeaderSize ≤ h.Length.val) (hlen : h.Length.val ≤ (contents ic.rwc.rd).length) :
    ic.Recv.1 = .ok h (slice (contents ic.rwc.rd) HeaderSize (h.Length.val - HeaderSize)) ∧
      contents ic.Recv.2.rwc.rd = (contents ic.rwc.rd).drop h.Length.val ∧
      errorFree ic.Recv.2.rwc.rd := by
  rw [hrd] at hef hdec hlen ⊢
  obtain ⟨a, b, c, d⟩ := Read_header ev rest HeaderSize hef hfirst
  have hpos : h.Length.val > 0 := by
    have : HeaderSize = 16 := rfl
    omega
  have hneg : ¬ ((h.Length.val : Int) - (HeaderSize : Int) < 0) := by omega
  have htn : ((h.Length.val : Int) - (HeaderSize : Int)).toNat = h.Length.val - HeaderSize := by
    omega
  have hlen2 : h.Length.val - HeaderSize ≤ (contents (Read (ev :: rest) HeaderSize).2.2).length := by
    rw [c, List.length_drop]
    omega
  obtain ⟨a2, b2, c2, d2⟩ :=
    ReadFull_errorFree (Read (ev :: rest) HeaderSize).2.2 (h.Length.val - HeaderSize) d hlen2
  simp only [Conn.Recv, hrd, b, a, hdec, hpos, if_true, hneg, if_false, htn, b2, a2, c2, c, slice]
  refine ⟨trivial, ?_, d2⟩
  rw [List.drop_drop]
  congr 1
  omega

/-! ## The header codec -/

/-- Claim C1, header round trip: for every header, decoding its encoding
succeeds and returns a header equal to it in every field. -/
theorem header_roundtrip (h : Header) : UnmarshalHeader h.Marshal = .ok h := by
  have := UnmarshalHeader_Marshal_append h []
  rwa [List.append_nil] at this

/-- Claim C2, header wire layout: the encoding is exactly 16 bytes, with `Type` as a
little-endian value in bytes 0..3, `Length` in bytes 4..5, `Flags` in bytes
6..7, `PeerID` in bytes 8..11 and `PID` in bytes 12..15. -/
theorem header_wire_layout (h : Header) :
    h.Marshal.length = 16 ∧ HeaderSize = 16 ∧
      (slice h.Marshal 0 4).length = 4 ∧ leValue (slice h.Marshal 0 4) = h.Typ.val ∧
      (slice h.Marshal 4 2).length = 2 ∧ leValue (slice h.Marshal 4 2) = h.Length.val ∧
      (slice h.Marshal 6 2).length = 2 ∧ leValue (slice h.Marshal 6 2) = h.Flags.val ∧
      (slice h.Marshal 8 4).length = 4 ∧ leValue (slice h.Marshal 8 4) = h.PeerID.val ∧
      (slice h.Marshal 12 4).length = 4 ∧ leValue (slice h.Marshal 12 4) = h.PID.val := by
  obtain ⟨t, l, f, p, q⟩ := h
  have ht := t.isLt
  have hl := l.isLt
  have hf := f.isLt
  have hp := p.isLt
  have hq := q.isLt
  simp only [Header.Marshal, putUint32, putUint16, slice, leValue, toByte, HeaderSize]
  simp
  refine ⟨?_, ?_, ?_, ?_, ?_⟩ <;> omega

/-- Claim C10, short buffer rejection: on fewer than `HeaderSize` bytes, the empty
slice included, `UnmarshalHeader` returns an error and no header. -/
theorem UnmarshalHeader_short (b : List Byte) (h : b.length < HeaderSize) :
    UnmarshalHeader b
      = .error (if b.length = 0 then Error.EOF else Error.ErrUnexpectedEOF) ∧
      ∀ hdr, UnmarshalHeader b ≠ .ok hdr := by
  rw [UnmarshalHeader_eq]
  by_cases h0 : b.length = 0
  · simp [h0]
  · simp [h0, h]

theorem UnmarshalHeader_short_witness :
    ([1, 2, 3] : List Byte).length < HeaderSize ∧
      (UnmarshalHeader [1, 2, 3]
        = .error (if ([1, 2, 3] : List Byte).length = 0 then Error.EOF else Error.ErrUnexpectedEOF) ∧
      ∀ hdr, UnmarshalHeader [1, 2, 3] ≠ .ok hdr) :=
  ⟨by decide, UnmarshalHeader_short [1, 2, 3] (by decide)⟩

/-! ## Send -/

/-- Claim C4, oversize rejection: for a payload longer than `MaxMessageSize`,
`Send` returns an error and issues no write; the connection and its stream
are what they were before the call. -/
theorem Send_oversize (ic : Conn) (typ : U32) (flags peerid : U16) (data : List Byte)
    (h : data.length > MaxMessageSize) :
    (ic.Send typ flags peerid data).1 = some Error.tooLarge ∧
      (ic.Send typ flags peerid data).2 = ic ∧
      (ic.Send typ flags peerid data).2.rwc.written = ic.rwc.written := by
  simp only [Conn.Send, h, if_true, and_self]

theorem Send_oversize_witness :
    (List.replicate 16385 (0 : Byte)).length > MaxMessageSize ∧
      ((Conn.Send ⟨⟨[], [], [[1]]⟩, 5⟩ 3 1 2 (List.replicate 16385 0)).1 = some Error.tooLarge ∧
      (Conn.Send ⟨⟨[], [], [[1]]⟩, 5⟩ 3 1 2 (List.replicate 16385 0)).2 = ⟨⟨[], [], [[1]]⟩, 5⟩ ∧
      (Conn.Send ⟨⟨[], [], [[1]]⟩, 5⟩ 3 1 2 (List.replicate 16385 0)).2.rwc.written = [[1]]) :=
  ⟨by rw [List.length_replicate]; decide,
    Send_oversize ⟨⟨[], [], [[1]]⟩, 5⟩ 3 1 2 (List.replicate 16385 0)
      (by rw [List.length_replicate]; decide)⟩

/-- Claim C5, length without truncation: for an accepted payload the header
that `Send` writes carries `Length = HeaderSize + len(payload)` as a natural
number; the conversion to sixteen bits does not wrap. -/
theorem Send_Length_exact (ic : Conn) (typ : U32) (flags peerid : U16) (data : List Byte)
    (h : data.length ≤ MaxMessageSize) :
    ∃ (b : List Byte) (hdr : Header), (ic.Send typ flags peerid data).2.rwc.written = ic.rwc.written ++ [b] ∧
      UnmarshalHeader (slice b 0 HeaderSize) = .ok hdr ∧
      hdr.Length.val = HeaderSize + data.length ∧
      (toU16 (HeaderSize + data.length)).val = HeaderSize + data.length ∧
      HeaderSize + data.length ≤ 16400 := by
  rw [Send_accept ic typ flags peerid data h]
  refine ⟨_, ⟨typ, toU16 (HeaderSize + data.length), 0, 0, ic.pid⟩, rfl, ?_,
    toU16_frame data.length h,
    toU16_frame data.length h, ?_⟩
  · have := UnmarshalHeader_Marshal_append
      ⟨typ, toU16 (HeaderSize + data.length), 0, 0, ic.pid⟩ []
    rw [List.append_nil] at this
    rw [slice, List.drop_zero, take_Marshal_append, this]
  · simp only [HeaderSize, MaxMessageSize] at *
    omega

theorem Send_Length_exact_witness :
    ([7, 8, 9] : List Byte).length ≤ MaxMessageSize ∧
    ∃ (b : List Byte) (hdr : Header), (Conn.Send ⟨⟨[], [], [[1]]⟩, 5⟩ 3 1 2 [7, 8, 9]).2.rwc.written = [[1]] ++ [b] ∧
      UnmarshalHeader (slice b 0 HeaderSize) = .ok hdr ∧
      hdr.Length.val = HeaderSize + ([7, 8, 9] : List Byte).length ∧
      (toU16 (HeaderSize + ([7, 8, 9] : List Byte).length)).val
        = HeaderSize + ([7, 8, 9] : List Byte).length ∧
      HeaderSize + ([7, 8, 9] : List Byte).length ≤ 16400 :=
  ⟨by decide, Send_Length_exact ⟨⟨[], [], [[1]]⟩, 5⟩ 3 1 2 [7, 8, 9] (by decide)⟩

/-- Claim C6, send wire image: for an accepted payload on a stream whose
write succeeds, `Send` issues exactly one write, whose bytes are the 16-byte
encoding of a header with the given type, `Length = HeaderSize + len(payload)`
and the connection's process id, followed at once by the payload bytes. -/
theorem Send_wire_image (ic : Conn) (typ : U32) (flags peerid : U16) (data : List Byte)
    (h : data.length ≤ MaxMessageSize) (hw : ic.rwc.nextWrite = none) :
    ∃ (frame : List Byte) (hdr : Header), (ic.Send typ flags peerid data).1 = none ∧
      (ic.Send typ flags peerid data).2.rwc.written = ic.rwc.written ++ [frame] ∧
      (ic.Send typ flags peerid data).2.rwc.rd = ic.rwc.rd ∧
      frame = hdr.Marshal ++ data ∧
      hdr.Typ = typ ∧ hdr.Length.val = HeaderSize + data.length ∧ hdr.PID = ic.pid ∧
      frame.length = 16 + data.length ∧
      slice frame 0 HeaderSize = hdr.Marshal ∧ frame.drop HeaderSize = data := by
  rw [Send_accept ic typ flags peerid data h]
  refine ⟨_, ⟨typ, toU16 (HeaderSize + data.length), 0, 0, ic.pid⟩, hw, rfl, rfl, rfl, rfl,
    toU16_frame data.length h, rfl, ?_, ?_, ?_⟩
  · rw [List.length_append, Marshal_length]
  · rw [slice, List.drop_zero, take_Marshal_append]
  · rw [drop_Marshal_append]

theorem Send_wire_image_witness :
    ([7, 8, 9] : List Byte).length ≤ MaxMessageSize ∧
    (⟨⟨[], [], [[1]]⟩, 5⟩ : Conn).rwc.nextWrite = none ∧
    ∃ (frame : List Byte) (hdr : Header), (Conn.Send ⟨⟨[], [], [[1]]⟩, 5⟩ 3 1 2 [7, 8, 9]).1 = none ∧
      (Conn.Send ⟨⟨[], [], [[1]]⟩, 5⟩ 3 1 2 [7, 8, 9]).2.rwc.written = [[1]] ++ [frame] ∧
      (Conn.Send ⟨⟨[], [], [[1]]⟩, 5⟩ 3 1 2 [7, 8, 9]).2.rwc.rd = [] ∧
      frame = hdr.Marshal ++ [7, 8, 9] ∧
      hdr.Typ = 3 ∧ hdr.Length.val = HeaderSize + ([7, 8, 9] : List Byte).length ∧ hdr.PID = 5 ∧
      frame.length = 16 + ([7, 8, 9] : List Byte).length ∧
      slice frame 0 HeaderSize = hdr.Marshal ∧ frame.drop HeaderSize = [7, 8, 9] :=
  ⟨by decide, rfl, Send_wire_image ⟨⟨[], [], [[1]]⟩, 5⟩ 3 1 2 [7, 8, 9] (by decide) rfl⟩

/-- Claim C7, discarded parameters: whatever `flags` and `peerid` are passed,
the header written carries `Flags = 0` and `PeerID = 0` (bytes 6..11 of the
frame are zero), and two calls that differ only in them write the same
bytes. -/
theorem Send_discards_flags_peerid (ic : Conn) (typ : U32) (flags peerid flags' peerid' : U16)
    (data : List Byte) (h : data.length ≤ MaxMessageSize) :
    ic.Send typ flags peerid data = ic.Send typ flags' peerid' data ∧
    ∃ (frame : List Byte) (hdr : Header), (ic.Send typ flags peerid data).2.rwc.written = ic.rwc.written ++ [frame] ∧
      UnmarshalHeader frame = .ok hdr ∧ hdr.Flags = 0 ∧ hdr.PeerID = 0 ∧
      slice frame 6 6 = [0, 0, 0, 0, 0, 0] := by
  rw [Send_accept ic typ flags peerid data h, Send_accept ic typ flags' peerid' data h]
  refine ⟨rfl, _, ⟨typ, toU16 (HeaderSize + data.length), 0, 0, ic.pid⟩, rfl,
    UnmarshalHeader_Marshal_append _ _, rfl, rfl, ?_⟩
  simp [slice, Header.Marshal, putUint32, putUint16, toByte]

theorem Send_discards_flags_peerid_witness :
    ([7, 8, 9] : List Byte).length ≤ MaxMessageSize ∧
    (Conn.Send ⟨⟨[], [], [[1]]⟩, 5⟩ 3 1 2 [7, 8, 9]
        = Conn.Send ⟨⟨[], [], [[1]]⟩, 5⟩ 3 65535 4 [7, 8, 9] ∧
      ∃ (frame : List Byte) (hdr : Header),
        (Conn.Send ⟨⟨[], [], [[1]]⟩, 5⟩ 3 1 2 [7, 8, 9]).2.rwc.written = [[1]] ++ [frame] ∧
        UnmarshalHeader frame = .ok hdr ∧ hdr.Flags = 0 ∧ hdr.PeerID = 0 ∧
        slice frame 6 6 = [0, 0, 0, 0, 0, 0]) :=
  ⟨by decide, Send_discards_flags_peerid ⟨⟨[], [], [[1]]⟩, 5⟩ 3 1 2 65535 4 [7, 8, 9] (by decide)⟩

/-! ## Recv -/

/-- Claim C3, send and receive round trip: a payload of at most
`MaxMessageSize` bytes sent on one end of an initially empty reliable stream
is received on the peer end, with a header whose `Type` is the type sent and
with the same payload bytes. -/
theorem Send_Recv_roundtrip (ic : Conn) (typ : U32) (flags peerid : U16) (p : List Byte)
    (pid : U32) (hp : p.length ≤ MaxMessageSize) (hempty : ic.rwc.written = [])
    (hw : ic.rwc.nextWrite = none) :
    (ic.Send typ flags peerid p).1 = none ∧
      ∃ hdr, (peerOf (ic.Send typ flags peerid p).2 pid).Recv.1 = .ok hdr p ∧ hdr.Typ = typ := by
  rw [Send_accept ic typ flags peerid p hp]
  refine ⟨hw, ⟨typ, toU16 (HeaderSize + p.length), 0, 0, ic.pid⟩, ?_, rfl⟩
  generalize hh : (⟨typ, toU16 (HeaderSize + p.length), 0, 0, ic.pid⟩ : Header) = hdr
  have hL : hdr.Length.val = HeaderSize + p.length := by
    rw [← hh]; exact toU16_frame p.length hp
  have hl := Marshal_length hdr
  have hne : ¬ (hdr.Marshal ++ p).length = 0 := by
    rw [List.length_append]; omega
  have hrd : (peerOf { ic with rwc := { ic.rwc with
            wres := ic.rwc.wres.tail
            written := ic.rwc.written ++ [hdr.Marshal ++ p] } } pid).rwc.rd
      = ⟨hdr.Marshal ++ p, none⟩ :: [] := by
    simp only [peerOf, pipe, hempty, List.nil_append, List.flatten_cons, List.flatten_nil,
      List.append_nil, bytesReader, hne, if_false]
  have hc : contents (⟨hdr.Marshal ++ p, none⟩ :: []) = hdr.Marshal ++ p := by
    simp [contents]
  have := Recv_errorFree _ _ _ hdr hrd
    (by simp only [List.length_append, hl, HeaderSize]; omega)
    (by rw [hrd]; intro ev hev; rw [List.mem_singleton] at hev; rw [hev])
    (by rw [hrd, hc, take_Marshal_append]
        have := UnmarshalHeader_Marshal_append hdr []
        rwa [List.append_nil] at this)
    (by omega)
    (by rw [hrd, hc, List.length_append, hl, hL]; simp only [HeaderSize]; omega)
  rw [this.1, hrd, hc, slice, drop_Marshal_append, hL, Nat.add_sub_cancel_left, List.take_length]

theorem Send_Recv_roundtrip_witness :
    ([7, 8, 9] : List Byte).length ≤ MaxMessageSize ∧
      (⟨⟨[], [], []⟩, 5⟩ : Conn).rwc.written = [] ∧
      (⟨⟨[], [], []⟩, 5⟩ : Conn).rwc.nextWrite = none ∧
      ((Conn.Send ⟨⟨[], [], []⟩, 5⟩ 3 1 2 [7, 8, 9]).1 = none ∧
        ∃ hdr, (peerOf (Conn.Send ⟨⟨[], [], []⟩, 5⟩ 3 1 2 [7, 8, 9]).2 6).Recv.1
          = .ok hdr [7, 8, 9] ∧ hdr.Typ = 3) :=
  ⟨by decide, rfl, rfl, Send_Recv_roundtrip ⟨⟨[], [], []⟩, 5⟩ 3 1 2 [7, 8, 9] 6 (by decide) rfl rfl⟩

/-- Claim C8, header read completeness, evaluated on a stream that delivers
a well-formed 18-byte frame in two reads of 8 and 10 bytes: `Recv` decodes
from the 8 bytes of the first read and returns `ErrUnexpectedEOF`, while the
same bytes delivered by one read give the header and the payload. -/
theorem Recv_split_header :
    contents [⟨[1, 0, 0, 0, 18, 0, 0, 0], none⟩, ⟨[0, 0, 0, 0, 42, 0, 0, 0, 0xAA, 0xBB], none⟩]
        = Header.Marshal ⟨1, 18, 0, 0, 42⟩ ++ [0xAA, 0xBB] ∧
      (Conn.Recv ⟨⟨[⟨[1, 0, 0, 0, 18, 0, 0, 0], none⟩,
          ⟨[0, 0, 0, 0, 42, 0, 0, 0, 0xAA, 0xBB], none⟩], [], []⟩, 7⟩).1
        = .error Error.ErrUnexpectedEOF ∧
      (Conn.Recv ⟨⟨[⟨[1, 0, 0, 0, 18, 0, 0, 0, 0, 0, 0, 0, 42, 0, 0, 0, 0xAA, 0xBB], none⟩],
          [], []⟩, 7⟩).1
        = .ok ⟨1, 18, 0, 0, 42⟩ [0xAA, 0xBB] := by
  decide

/-- The payload path of `Recv` once the header is in: when the first read
delivers the 16 header bytes, these decode to `h` with `Length ≥ HeaderSize`,
and the stream holds at least `Length` bytes, `Recv` returns as payload
exactly the next `Length - HeaderSize` bytes and consumes exactly `Length`
bytes; for `Length = HeaderSize` the payload is empty and nothing past the
header is read. -/
theorem Recv_payload_length (ic : Conn) (ev : ReadEvent) (rest : Reader) (h : Header)
    (hrd : ic.rwc.rd = ev :: rest) (hfirst : HeaderSize ≤ ev.data.length)
    (hef : errorFree ic.rwc.rd)
    (hdec : UnmarshalHeader ((contents ic.rwc.rd).take HeaderSize) = .ok h)
    (hge : HeaderSize ≤ h.Length.val) (hlen : h.Length.val ≤ (contents ic.rwc.rd).length) :
    ic.Recv.1 = .ok h (slice (contents ic.rwc.rd) HeaderSize (h.Length.val - HeaderSize)) ∧
      (slice (contents ic.rwc.rd) HeaderSize (h.Length.val - HeaderSize)).length
        = h.Length.val - HeaderSize ∧
      contents ic.Recv.2.rwc.rd = (contents ic.rwc.rd).drop h.Length.val ∧
      (h.Length.val = HeaderSize →
        ic.Recv.1 = .ok h [] ∧
          contents ic.Recv.2.rwc.rd = (contents ic.rwc.rd).drop HeaderSize) := by
  obtain ⟨a, b, _⟩ := Recv_errorFree ic ev rest h hrd hfirst hef hdec hge hlen
  refine ⟨a, ?_, b, ?_⟩
  · rw [slice, List.length_take, List.length_drop]
    omega
  · intro heq
    rw [a, b, heq, Nat.sub_self, slice, List.take_zero]
    exact ⟨rfl, rfl⟩

theorem Recv_payload_length_witness :
    (⟨⟨[⟨[1, 0, 0, 0, 19, 0, 0, 0, 0, 0, 0, 0, 42, 0, 0, 0, 0xAA], none⟩,
          ⟨[0xBB, 0xCC, 0xDD], none⟩], [], []⟩, 7⟩ : Conn).Recv.1
        = .ok ⟨1, 19, 0, 0, 42⟩ [0xAA, 0xBB, 0xCC] ∧
      contents (⟨⟨[⟨[1, 0, 0, 0, 19, 0, 0, 0, 0, 0, 0, 0, 42, 0, 0, 0, 0xAA], none⟩,
          ⟨[0xBB, 0xCC, 0xDD], none⟩], [], []⟩, 7⟩ : Conn).Recv.2.rwc.rd = [0xDD] :=
  have w := Recv_payload_length
    ⟨⟨[⟨[1, 0, 0, 0, 19, 0, 0, 0, 0, 0, 0, 0, 42, 0, 0, 0, 0xAA], none⟩,
          ⟨[0xBB, 0xCC, 0xDD], none⟩], [], []⟩, 7⟩
    ⟨[1, 0, 0, 0, 19, 0, 0, 0, 0, 0, 0, 0, 42, 0, 0, 0, 0xAA], none⟩
    [⟨[0xBB, 0xCC, 0xDD], none⟩] ⟨1, 19, 0, 0, 42⟩ rfl (by decide) (by decide) (by decide)
    (by decide) (by decide)
  ⟨w.1, w.2.2.1⟩

/-- Claim C9, payload length on receive, evaluated on a stream without errors
that holds 20 bytes, whose first 16 bytes decode to a header with
`Length = 19`, and that delivers them in two reads of 8 and 12 bytes: `Recv`
returns `ErrUnexpectedEOF` and not the 3 payload bytes that follow the
header; likewise for a header with `Length = HeaderSize` split over two
reads.  The same bytes delivered by one read give the header, exactly the
next 3 bytes as payload, and leave the last byte in the stream. -/
theorem Recv_payload_after_split_header :
    errorFree [⟨[1, 0, 0, 0, 19, 0, 0, 0], none⟩,
        ⟨[0, 0, 0, 0, 42, 0, 0, 0, 0xAA, 0xBB, 0xCC, 0xDD], none⟩] ∧
      UnmarshalHeader ((contents [⟨[1, 0, 0, 0, 19, 0, 0, 0], none⟩,
        ⟨[0, 0, 0, 0, 42, 0, 0, 0, 0xAA, 0xBB, 0xCC, 0xDD], none⟩]).take HeaderSize)
        = .ok ⟨1, 19, 0, 0, 42⟩ ∧
      19 ≤ (contents [⟨[1, 0, 0, 0, 19, 0, 0, 0], none⟩,
        ⟨[0, 0, 0, 0, 42, 0, 0, 0, 0xAA, 0xBB, 0xCC, 0xDD], none⟩]).length ∧
      slice (contents [⟨[1, 0, 0, 0, 19, 0, 0, 0], none⟩,
        ⟨[0, 0, 0, 0, 42, 0, 0, 0, 0xAA, 0xBB, 0xCC, 0xDD], none⟩]) HeaderSize (19 - HeaderSize)
        = [0xAA, 0xBB, 0xCC] ∧
      (Conn.Recv ⟨⟨[⟨[1, 0, 0, 0, 19, 0, 0, 0], none⟩,
          ⟨[0, 0, 0, 0, 42, 0, 0, 0, 0xAA, 0xBB, 0xCC, 0xDD], none⟩], [], []⟩, 7⟩).1
        = .error Error.ErrUnexpectedEOF ∧
      (Conn.Recv ⟨⟨[⟨[1, 0, 0, 0, 19, 0, 0, 0], none⟩,
          ⟨[0, 0, 0, 0, 42, 0, 0, 0, 0xAA, 0xBB, 0xCC, 0xDD], none⟩], [], []⟩, 7⟩).1
        ≠ .ok ⟨1, 19, 0, 0, 42⟩ [0xAA, 0xBB, 0xCC] ∧
      (Conn.Recv ⟨⟨[⟨[1, 0, 0, 0, 16, 0, 0, 0, 0, 0, 0, 0], none⟩,
          ⟨[42, 0, 0, 0], none⟩], [], []⟩, 7⟩).1
        = .error Error.ErrUnexpectedEOF ∧
      (Conn.Recv ⟨⟨[⟨[1, 0, 0, 0, 19, 0, 0, 0, 0, 0, 0, 0, 42, 0, 0, 0, 0xAA, 0xBB, 0xCC,
          0xDD], none⟩], [], []⟩, 7⟩).1
        = .ok ⟨1, 19, 0, 0, 42⟩ [0xAA, 0xBB, 0xCC] ∧
      contents (Conn.Recv ⟨⟨[⟨[1, 0, 0, 0, 19, 0, 0, 0, 0, 0, 0, 0, 42, 0, 0, 0, 0xAA, 0xBB,
          0xCC, 0xDD], none⟩], [], []⟩, 7⟩).2.rwc.rd = [0xDD] := by
  decide

/-! ## Lemmas on streams that end or fail -/

/-- A loop that the stream cannot fill ends with an error and a short buffer. -/
theorem readLoop_short (min : Nat) (r : Reader) :
    ∀ buf : List Byte, buf.length + (untilError r).length < min →
      (readLoop min r buf).1.length < min ∧ ∃ e, (readLoop min r buf).2.1 = some e := by
  induction r with
  | nil =>
    intro buf h
    have h1 : buf.length < min := by omega
    simp only [readLoop, h1, if_true]
    exact ⟨trivial, _, rfl⟩
  | cons ev rest ih =>
    intro buf h
    have h1 : buf.length < min := by omega
    cases he : ev.err with
    | none =>
      simp only [untilError, he, List.length_append] at h
      have h2 : ev.data.length ≤ min - buf.length := by omega
      simp only [readLoop, h1, h2, if_true, he]
      exact ih (buf ++ ev.data) (by rw [List.length_append]; omega)
    | some e =>
      simp only [untilError, he] at h
      have h2 : ev.data.length ≤ min - buf.length := by omega
      simp only [readLoop, h1, h2, if_true, he]
      exact ⟨by rw [List.length_append]; omega, e, rfl⟩

/-- On a stream that ends or reports an error before `n` bytes are delivered,
`io.ReadFull` returns an error. -/
theorem ReadFull_short (r : Reader) (n : Nat) (h : (untilError r).length < n) :
    ∃ e, (ReadFull r n).2.1 = some e := by
  obtain ⟨a, e, b⟩ := readLoop_short n r [] (by simpa using h)
  have a' : ¬ (readLoop n r []).1.length ≥ n := by omega
  simp only [ReadFull, a', if_false]
  split
  · exact ⟨_, rfl⟩
  · exact ⟨e, b⟩

/-- After a header with `Length ≥ HeaderSize` was decoded, `Recv` returns what
`io.ReadFull` gives for the payload. -/
theorem Recv_after_header (ic : Conn) (h : Header)
    (hrd : (Read ic.rwc.rd HeaderSize).2.1 = none)
    (hdec : UnmarshalHeader (Read ic.rwc.rd HeaderSize).1 = .ok h)
    (hge : HeaderSize ≤ h.Length.val) :
    ic.Recv.1 =
      match (ReadFull (Read ic.rwc.rd HeaderSize).2.2 (h.Length.val - HeaderSize)).2.1 with
      | some err => .error err
      | none => .ok h (ReadFull (Read ic.rwc.rd HeaderSize).2.2 (h.Length.val - HeaderSize)).1 := by
  have hpos : h.Length.val > 0 := by
    have : HeaderSize = 16 := rfl
    omega
  have hneg : ¬ ((h.Length.val : Int) - (HeaderSize : Int) < 0) := by omega
  have htn : ((h.Length.val : Int) - (HeaderSize : Int)).toNat = h.Length.val - HeaderSize := by
    omega
  simp only [Conn.Recv, hrd, hdec, hpos, if_true, hneg, if_false, htn]
  cases (ReadFull (Read ic.rwc.rd HeaderSize).2.2 (h.Length.val - HeaderSize)).2.1 <;> rfl

/-- Every header with `Length` from 1 to 15 makes `Recv` abort. -/
theorem Recv_panic (ic : Conn) (h : Header)
    (hrd : (Read ic.rwc.rd HeaderSize).2.1 = none)
    (hdec : UnmarshalHeader (Read ic.rwc.rd HeaderSize).1 = .ok h)
    (hpos : 0 < h.Length.val) (hlt : h.Length.val < HeaderSize) :
    ic.Recv.1 = .panic := by
  have hneg : ((h.Length.val : Int) - (HeaderSize : Int) < 0) := by omega
  simp only [Conn.Recv, hrd, hdec, gt_iff_lt, hpos, if_true, hneg]

/-- The loop reads through a prefix without errors that does not fill the buffer. -/
theorem readLoop_through (min : Nat) (tail : Reader) (pre : Reader) :
    ∀ buf : List Byte, errorFree pre → buf.length + (contents pre).length < min →
      readLoop min (pre ++ tail) buf = readLoop min tail (buf ++ contents pre) := by
  induction pre with
  | nil =>
    intro buf _ _
    simp only [List.nil_append, contents_nil, List.append_nil]
  | cons ev rest ih =>
    intro buf hef hlen
    have hev : ev.err = none := hef ev (List.mem_cons_self _ _)
    have hrest : errorFree rest := fun e he => hef e (List.mem_cons_of_mem _ he)
    rw [contents_cons, List.length_append] at hlen
    have h1 : buf.length < min := by omega
    have h2 : ev.data.length ≤ min - buf.length := by omega
    rw [List.cons_append]
    simp only [readLoop, h1, h2, if_true, hev]
    rw [ih (buf ++ ev.data) hrest (by rw [List.length_append]; omega), contents_cons,
      List.append_assoc]

/-- What `io.ReadFull` returns when, after reads without error that leave the
buffer unfilled, a read reports an error. -/
theorem ReadFull_error_at (pre tail : Reader) (n : Nat) (e : Error) (hef : errorFree pre)
    (hlt : (contents pre).length < n)
    (herr : (Read tail (n - (contents pre).length)).2.1 = some e) :
    ReadFull (pre ++ tail) n =
      if (contents pre ++ (Read tail (n - (contents pre).length)).1).length ≥ n then
        (contents pre ++ (Read tail (n - (contents pre).length)).1, none,
          (Read tail (n - (contents pre).length)).2.2)
      else if (contents pre ++ (Read tail (n - (contents pre).length)).1).length > 0
          ∧ e = Error.EOF then
        (contents pre ++ (Read tail (n - (contents pre).length)).1, some Error.ErrUnexpectedEOF,
          (Read tail (n - (contents pre).length)).2.2)
      else
        (contents pre ++ (Read tail (n - (contents pre).length)).1, some e,
          (Read tail (n - (contents pre).length)).2.2) := by
  have hloop : readLoop n (pre ++ tail) []
      = (contents pre ++ (Read tail (n - (contents pre).length)).1, some e,
          (Read tail (n - (contents pre).length)).2.2) := by
    rw [readLoop_through n tail pre [] hef (by simpa using hlt), List.nil_append, readLoop_step,
      if_pos hlt]
    simp only [herr]
  simp only [ReadFull, hloop, Option.some.injEq]

/-! ## Lemmas on decoding -/

/-- A slice of at least sixteen bytes is sixteen bytes followed by the rest. -/
theorem exists_header_bytes (b : List Byte) (h : HeaderSize ≤ b.length) :
    ∃ (b0 b1 b2 b3 b4 b5 b6 b7 b8 b9 b10 b11 b12 b13 b14 b15 : Byte) (t : List Byte),
      b = b0 :: b1 :: b2 :: b3 :: b4 :: b5 :: b6 :: b7 :: b8 :: b9 :: b10 :: b11 :: b12 :: b13
        :: b14 :: b15 :: t := by
  simp only [HeaderSize] at h
  rcases b with _ | ⟨b0, b⟩
  · simp only [List.length_cons, List.length_nil] at h; omega
  rcases b with _ | ⟨b1, b⟩
  · simp only [List.length_cons, List.length_nil] at h; omega
  rcases b with _ | ⟨b2, b⟩
  · simp only [List.length_cons, List.length_nil] at h; omega
  rcases b with _ | ⟨b3, b⟩
  · simp only [List.length_cons, List.length_nil] at h; omega
  rcases b with _ | ⟨b4, b⟩
  · simp only [List.length_cons, List.length_nil] at h; omega
  rcases b with _ | ⟨b5, b⟩
  · simp only [List.length_cons, List.length_nil] at h; omega
  rcases b with _ | ⟨b6, b⟩
  · simp only [List.length_cons, List.length_nil] at h; omega
  rcases b with _ | ⟨b7, b⟩
  · simp only [List.length_cons, List.length_nil] at h; omega
  rcases b with _ | ⟨b8, b⟩
  · simp only [List.length_cons, List.length_nil] at h; omega
  rcases b with _ | ⟨b9, b⟩
  · simp only [List.length_cons, List.length_nil] at h; omega
  rcases b with _ | ⟨b10, b⟩
  · simp only [List.length_cons, List.length_nil] at h; omega
  rcases b with _ | ⟨b11, b⟩
  · simp only [List.length_cons, List.length_nil] at h; omega
  rcases b with _ | ⟨b12, b⟩
  · simp only [List.length_cons, List.length_nil] at h; omega
  rcases b with _ | ⟨b13, b⟩
  · simp only [List.length_cons, List.length_nil] at h; omega
  rcases b with _ | ⟨b14, b⟩
  · simp only [List.length_cons, List.length_nil] at h; omega
  rcases b with _ | ⟨b15, b⟩
  · simp only [List.length_cons, List.length_nil] at h; omega
  exact ⟨b0, b1, b2, b3, b4, b5, b6, b7, b8, b9, b10, b11, b12, b13, b14, b15, b, rfl⟩

theorem putUint16_get (b0 b1 : Byte) : putUint16 (getUint16 b0 b1) = [b0, b1] := by
  have h0 := b0.isLt
  have h1 := b1.isLt
  simp only [putUint16, getUint16, toByte, List.cons.injEq, and_true]
  exact ⟨Fin.ext (by simp only []; omega), Fin.ext (by simp only []; omega)⟩

theorem putUint32_get (b0 b1 b2 b3 : Byte) :
    putUint32 (getUint32 b0 b1 b2 b3) = [b0, b1, b2, b3] := by
  have h0 := b0.isLt
  have h1 := b1.isLt
  have h2 := b2.isLt
  have h3 := b3.isLt
  simp only [putUint32, getUint32, toByte, List.cons.injEq, and_true]
  exact ⟨Fin.ext (by simp only []; omega), Fin.ext (by simp only []; omega),
    Fin.ext (by simp only []; omega), Fin.ext (by simp only []; omega)⟩

/-! ## Lemmas on reliable streams -/

/-- A `bytes.Reader` delivers its bytes. -/
theorem contents_bytesReader (b : List Byte) : contents (bytesReader b) = b := by
  by_cases h : b.length = 0
  · have : b = [] := List.length_eq_zero.mp h
    subst this
    rfl
  · simp [bytesReader, h, contents]

theorem Read_bytesReader (b : List Byte) (k : Nat) (hpos : 0 < k) (hk : k ≤ b.length) :
    Read (bytesReader b) k = (b.take k, none, bytesReader (b.drop k)) := by
  have h0 : ¬ b.length = 0 := by omega
  by_cases h : b.length ≤ k
  · have hd : (b.drop k).length = 0 := by rw [List.length_drop]; omega
    simp only [bytesReader, h0, if_false, Read, h, if_true, hd, List.take_of_length_le h]
  · have hd : ¬ (b.drop k).length = 0 := by rw [List.length_drop]; omega
    simp only [bytesReader, h0, if_false, Read, h, hd]

theorem ReadFull_zero (r : Reader) : ReadFull r 0 = ([], none, r) := by
  cases r <;> simp [ReadFull, readLoop]

/-- What `Recv` does on a stream that holds the bytes `b` and hands over every
requested byte that is available. -/
theorem Recv_pipe (ic : Conn) (b : List Byte) (h : Header)
    (hrd : ic.rwc.rd = bytesReader b)
    (hdec : UnmarshalHeader (b.take HeaderSize) = .ok h)
    (hge : HeaderSize ≤ h.Length.val) (hlen : h.Length.val ≤ b.length) :
    ic.Recv = (.ok h (slice b HeaderSize (h.Length.val - HeaderSize)),
      { ic with rwc := { ic.rwc with rd := bytesReader (b.drop h.Length.val) } }) := by
  have h16 : HeaderSize = 16 := rfl
  have hR := Read_bytesReader b HeaderSize (by decide) (by omega)
  have hpos : h.Length.val > 0 := by omega
  have hneg : ¬ ((h.Length.val : Int) - (HeaderSize : Int) < 0) := by omega
  have htn : ((h.Length.val : Int) - (HeaderSize : Int)).toNat = h.Length.val - HeaderSize := by
    omega
  simp only [Conn.Recv, hrd, hR, hdec, hpos, if_true, hneg, if_false, htn]
  by_cases hz : h.Length.val - HeaderSize = 0
  · have hL : h.Length.val = HeaderSize := by omega
    simp only [hz, ReadFull_zero, slice, List.take_zero]
    rw [hL]
  · have hF := ReadFull_bytesReader (b.drop HeaderSize) (h.Length.val - HeaderSize) (by omega)
    have hl0 : ¬ (b.drop HeaderSize).length = 0 := by rw [List.length_drop]; omega
    have hl1 : ¬ (b.drop HeaderSize).length < h.Length.val - HeaderSize := by
      rw [List.length_drop]; omega
    rw [if_neg hl0, if_neg hl1] at hF
    have hdd : (b.drop HeaderSize).drop (h.Length.val - HeaderSize) = b.drop h.Length.val := by
      rw [List.drop_drop]
      congr 1
      omega
    simp only [hF, slice, hdd]


theorem nextWrite_of_all_none (s : Stream) (hw : ∀ r ∈ s.wres, r = none) : s.nextWrite = none := by
  unfold Stream.nextWrite
  cases hs : s.wres with
  | nil => rfl
  | cons r rest => exact hw r (by rw [hs]; exact List.mem_cons_self _ _)

/-- Successful sends append their frames to the write log, in order. -/
theorem sendAll_ok (msgs : List Msg) :
    ∀ ic : Conn, (∀ m ∈ msgs, m.data.length ≤ MaxMessageSize) → (∀ r ∈ ic.rwc.wres, r = none) →
      (sendAll ic msgs).1 = msgs.map (fun _ => none) ∧
      (sendAll ic msgs).2.rwc.written = ic.rwc.written ++ msgs.map (frameOf ic.pid) ∧
      (sendAll ic msgs).2.pid = ic.pid := by
  induction msgs with
  | nil =>
    intro ic _ _
    simp [sendAll]
  | cons m ms ih =>
    intro ic hall hw
    have hm : m.data.length ≤ MaxMessageSize := hall m (List.mem_cons_self _ _)
    have hms : ∀ x ∈ ms, x.data.length ≤ MaxMessageSize :=
      fun x hx => hall x (List.mem_cons_of_mem _ hx)
    have hS := Send_accept ic m.typ m.flags m.peerid m.data hm
    have hw' : ∀ r ∈ (ic.Send m.typ m.flags m.peerid m.data).2.rwc.wres, r = none := by
      rw [hS]
      intro r hr
      exact hw r (List.mem_of_mem_tail hr)
    obtain ⟨a, b, c⟩ := ih (ic.Send m.typ m.flags m.peerid m.data).2 hms hw'
    simp only [sendAll, List.map_cons]
    refine ⟨?_, ?_, ?_⟩
    · rw [a, hS, nextWrite_of_all_none ic.rwc hw]
    · rw [b, hS]
      simp only [List.append_assoc, List.singleton_append, frameOf, sentHeader]
    · rw [c, hS]

/-- Receiving from a stream that holds the frames of the messages gives the
messages back, one frame for each call. -/
theorem recvAll_frames (pid : U32) (msgs : List Msg) :
    ∀ ic : Conn, (∀ m ∈ msgs, m.data.length ≤ MaxMessageSize) →
      ic.rwc.rd = bytesReader (msgs.map (frameOf pid)).flatten →
      (recvAll msgs.length ic).1
          = msgs.map (fun m => (RecvResult.ok (sentHeader pid m) m.data,
              HeaderSize + m.data.length)) ∧
        (recvAll msgs.length ic).2.rwc.rd = [] := by
  induction msgs with
  | nil =>
    intro ic _ hrd
    simp only [List.length_nil, recvAll, List.map_nil, true_and]
    rw [hrd]
    rfl
  | cons m ms ih =>
    intro ic hall hrd
    have hm : m.data.length ≤ MaxMessageSize := hall m (List.mem_cons_self _ _)
    have hms : ∀ x ∈ ms, x.data.length ≤ MaxMessageSize :=
      fun x hx => hall x (List.mem_cons_of_mem _ hx)
    have hL : (sentHeader pid m).Length.val = HeaderSize + m.data.length :=
      toU16_frame m.data.length hm
    have hl := Marshal_length (sentHeader pid m)
    have h16 : HeaderSize = 16 := rfl
    rw [List.map_cons, List.flatten_cons] at hrd
    have hdec : UnmarshalHeader ((frameOf pid m ++ (ms.map (frameOf pid)).flatten).take HeaderSize)
        = .ok (sentHeader pid m) := by
      rw [frameOf, List.append_assoc, take_Marshal_append]
      have := UnmarshalHeader_Marshal_append (sentHeader pid m) []
      rwa [List.append_nil] at this
    have hflen : (frameOf pid m).length = HeaderSize + m.data.length := by
      rw [frameOf, List.length_append, hl, h16]
    have hR := Recv_pipe ic _ (sentHeader pid m) hrd hdec (by omega)
      (by rw [List.length_append, hflen, hL]; omega)
    have hdrop : (frameOf pid m ++ (ms.map (frameOf pid)).flatten).drop
        (sentHeader pid m).Length.val = (ms.map (frameOf pid)).flatten := by
      rw [hL, List.drop_append_of_le_length (by omega), List.drop_of_length_le (by omega),
        List.nil_append]
    have hslice : slice (frameOf pid m ++ (ms.map (frameOf pid)).flatten) HeaderSize
        ((sentHeader pid m).Length.val - HeaderSize) = m.data := by
      rw [slice, frameOf, List.append_assoc, drop_Marshal_append, hL, Nat.add_sub_cancel_left,
        List.take_append_of_le_length (Nat.le_refl _), List.take_length]
    rw [hdrop, hslice] at hR
    obtain ⟨a, b⟩ := ih ic.Recv.2 hms (by rw [hR])
    simp only [List.length_cons, recvAll, List.map_cons]
    refine ⟨?_, b⟩
    rw [a, hR]
    simp only [hrd, contents_bytesReader, List.length_append, hflen]
    congr 2
    omega

/-! ## Truncated streams and stream errors -/

/-- Claim C11, truncated header on receive: on a stream that delivers fewer
than `HeaderSize` bytes before it closes or reports an error, `Recv` returns
an error, hence neither a header nor a payload. -/
theorem Recv_truncated_header (ic : Conn) (h : (untilError ic.rwc.rd).length < HeaderSize) :
    ∃ e, ic.Recv.1 = .error e := by
  cases hrd : ic.rwc.rd with
  | nil =>
    exact ⟨Error.EOF, by simp only [Conn.Recv, hrd, Read]⟩
  | cons ev rest =>
    rw [hrd] at h
    have hev : ev.data.length < HeaderSize := by
      cases he : ev.err with
      | none => simp only [untilError, he, List.length_append] at h; omega
      | some e => simp only [untilError, he] at h; exact h
    have hle : ev.data.length ≤ HeaderSize := by omega
    cases he : ev.err with
    | some e =>
      exact ⟨e, by simp only [Conn.Recv, hrd, Read, hle, if_true, he]⟩
    | none =>
      refine ⟨if ev.data.length = 0 then Error.EOF else Error.ErrUnexpectedEOF, ?_⟩
      simp only [Conn.Recv, hrd, Read, hle, if_true, he, UnmarshalHeader_eq, hev]
      by_cases h0 : ev.data.length = 0 <;> simp [h0]

theorem Recv_truncated_header_witness :
    (untilError (⟨⟨[⟨[1, 0, 0, 0, 18], none⟩, ⟨[0, 0], none⟩], [], []⟩, 7⟩ : Conn).rwc.rd).length
        < HeaderSize ∧
      ∃ e, (⟨⟨[⟨[1, 0, 0, 0, 18], none⟩, ⟨[0, 0], none⟩], [], []⟩, 7⟩ : Conn).Recv.1
        = .error e :=
  ⟨by decide,
    Recv_truncated_header ⟨⟨[⟨[1, 0, 0, 0, 18], none⟩, ⟨[0, 0], none⟩], [], []⟩, 7⟩ (by decide)⟩

/-- Claim C12, truncated payload on receive: when the first 16 bytes that the
stream delivers decode to a header with `Length > HeaderSize` and the stream
ends or reports an error before `Length` bytes are delivered, `Recv` returns
an error, hence neither a header nor a payload. -/
theorem Recv_truncated_payload (ic : Conn) (h : Header)
    (hdec : UnmarshalHeader ((untilError ic.rwc.rd).take HeaderSize) = .ok h)
    (hgt : HeaderSize < h.Length.val)
    (hshort : (untilError ic.rwc.rd).length < h.Length.val) :
    ∃ e, ic.Recv.1 = .error e := by
  have h16 : HeaderSize = 16 := rfl
  cases hrd : ic.rwc.rd with
  | nil => exact ⟨Error.EOF, by simp only [Conn.Recv, hrd, Read]⟩
  | cons ev rest =>
    rw [hrd] at hdec hshort
    by_cases hfit : ev.data.length ≤ HeaderSize
    · cases he : ev.err with
      | some e => exact ⟨e, by simp only [Conn.Recv, hrd, Read, hfit, if_true, he]⟩
      | none =>
        simp only [untilError, he] at hdec hshort
        by_cases hlt : ev.data.length < HeaderSize
        · refine ⟨if ev.data.length = 0 then Error.EOF else Error.ErrUnexpectedEOF, ?_⟩
          simp only [Conn.Recv, hrd, Read, hfit, if_true, he, UnmarshalHeader_eq, hlt]
          by_cases h0 : ev.data.length = 0 <;> simp [h0]
        · have heq : ev.data.length = HeaderSize := by omega
          have htake : (ev.data ++ untilError rest).take HeaderSize = ev.data := by
            rw [List.take_append_of_le_length (by omega), List.take_of_length_le (by omega)]
          rw [htake] at hdec
          have hR : Read ic.rwc.rd HeaderSize = (ev.data, none, rest) := by
            simp only [hrd, Read, hfit, if_true, he]
          have hrec := Recv_after_header ic h (by rw [hR]) (by rw [hR]; exact hdec) (by omega)
          rw [hR] at hrec
          obtain ⟨e, hE⟩ := ReadFull_short rest (h.Length.val - HeaderSize)
            (by rw [List.length_append] at hshort; omega)
          exact ⟨e, by rw [hrec]; simp only [hE]⟩
    · have hle : HeaderSize ≤ ev.data.length := by omega
      have htake : (untilError (ev :: rest)).take HeaderSize = ev.data.take HeaderSize := by
        cases he : ev.err with
        | none =>
          simp only [untilError, he]
          rw [List.take_append_of_le_length hle]
        | some e => simp only [untilError, he]
      rw [htake] at hdec
      have hR : Read ic.rwc.rd HeaderSize
          = (ev.data.take HeaderSize, none, ⟨ev.data.drop HeaderSize, ev.err⟩ :: rest) := by
        simp only [hrd, Read, hfit, if_false]
      have hrec := Recv_after_header ic h (by rw [hR]) (by rw [hR]; exact hdec) (by omega)
      rw [hR] at hrec
      have hu : (untilError (⟨ev.data.drop HeaderSize, ev.err⟩ :: rest)).length
          < h.Length.val - HeaderSize := by
        cases he : ev.err with
        | none =>
          simp only [untilError, he, List.length_append, List.length_drop] at hshort ⊢
          omega
        | some e =>
          simp only [untilError, he, List.length_drop] at hshort ⊢
          omega
      obtain ⟨e, hE⟩ := ReadFull_short _ _ hu
      exact ⟨e, by rw [hrec]; simp only [hE]⟩

theorem Recv_truncated_payload_witness :
    UnmarshalHeader ((untilError (⟨⟨[⟨[1, 0, 0, 0, 19, 0, 0, 0, 0, 0, 0, 0, 42, 0, 0, 0, 0xAA],
          none⟩, ⟨[0xBB], some Error.EOF⟩, ⟨[0xCC], none⟩], [], []⟩, 7⟩ : Conn).rwc.rd).take
          HeaderSize) = .ok ⟨1, 19, 0, 0, 42⟩ ∧
      ∃ e, (⟨⟨[⟨[1, 0, 0, 0, 19, 0, 0, 0, 0, 0, 0, 0, 42, 0, 0, 0, 0xAA], none⟩,
          ⟨[0xBB], some Error.EOF⟩, ⟨[0xCC], none⟩], [], []⟩, 7⟩ : Conn).Recv.1 = .error e :=
  ⟨by decide,
    Recv_truncated_payload
      ⟨⟨[⟨[1, 0, 0, 0, 19, 0, 0, 0, 0, 0, 0, 0, 42, 0, 0, 0, 0xAA], none⟩,
          ⟨[0xBB], some Error.EOF⟩, ⟨[0xCC], none⟩], [], []⟩, 7⟩
      ⟨1, 19, 0, 0, 42⟩ (by decide) (by decide) (by decide)⟩

/-- Claim C15 fails as stated: on a stream that delivers a header with
`Length = 19`, one payload byte, and then reports `EOF`, `Recv` returns
`ErrUnexpectedEOF` and not `EOF`; on a stream that reports an error together
with the last payload bytes, `Recv` returns no error at all. -/
theorem Recv_changes_stream_error :
    Read [⟨[1, 0, 0, 0, 19, 0, 0, 0, 0, 0, 0, 0, 42, 0, 0, 0], none⟩, ⟨[0xAA], none⟩] 16
        = ([1, 0, 0, 0, 19, 0, 0, 0, 0, 0, 0, 0, 42, 0, 0, 0], none, [⟨[0xAA], none⟩]) ∧
      Read [⟨[0xAA], none⟩] 3 = ([0xAA], none, []) ∧
      Read [] 2 = ([], some Error.EOF, []) ∧
      (Conn.Recv ⟨⟨[⟨[1, 0, 0, 0, 19, 0, 0, 0, 0, 0, 0, 0, 42, 0, 0, 0], none⟩,
          ⟨[0xAA], none⟩], [], []⟩, 7⟩).1 = .error Error.ErrUnexpectedEOF ∧
      (Conn.Recv ⟨⟨[⟨[1, 0, 0, 0, 19, 0, 0, 0, 0, 0, 0, 0, 42, 0, 0, 0], none⟩,
          ⟨[0xAA], none⟩], [], []⟩, 7⟩).1 ≠ .error Error.EOF ∧
      Read [⟨[0xAA, 0xBB, 0xCC], some (Error.other 1)⟩] 3
        = ([0xAA, 0xBB, 0xCC], some (Error.other 1), []) ∧
      (Conn.Recv ⟨⟨[⟨[1, 0, 0, 0, 19, 0, 0, 0, 0, 0, 0, 0, 42, 0, 0, 0], none⟩,
          ⟨[0xAA, 0xBB, 0xCC], some (Error.other 1)⟩], [], []⟩, 7⟩).1
        = .ok ⟨1, 19, 0, 0, 42⟩ [0xAA, 0xBB, 0xCC] := by
  decide

/-- Claim C15 as amended, stream errors in `Recv`: an error reported by the
read of the header is returned unchanged.  An error `e` reported by a read of
the payload, after reads without error that left the payload incomplete, is
returned unchanged when the payload is still incomplete, except that `EOF`
after at least one payload byte is returned as `ErrUnexpectedEOF`; when the
bytes delivered with the error complete the payload, the error is dropped and
`Recv` returns the header and the payload. -/
theorem Recv_stream_error (ic : Conn) (e : Error) :
    ((Read ic.rwc.rd HeaderSize).2.1 = some e → ic.Recv.1 = .error e) ∧
    ∀ (h : Header) (pre tail : Reader),
      (Read ic.rwc.rd HeaderSize).2.1 = none →
      UnmarshalHeader (Read ic.rwc.rd HeaderSize).1 = .ok h →
      HeaderSize ≤ h.Length.val →
      (Read ic.rwc.rd HeaderSize).2.2 = pre ++ tail →
      errorFree pre →
      (contents pre).length < h.Length.val - HeaderSize →
      (Read tail (h.Length.val - HeaderSize - (contents pre).length)).2.1 = some e →
      ic.Recv.1 =
        if (contents pre ++ (Read tail (h.Length.val - HeaderSize - (contents pre).length)).1).length
            ≥ h.Length.val - HeaderSize then
          .ok h (contents pre ++ (Read tail (h.Length.val - HeaderSize - (contents pre).length)).1)
        else if
            (contents pre ++ (Read tail (h.Length.val - HeaderSize - (contents pre).length)).1).length
              > 0 ∧ e = Error.EOF then
          .error Error.ErrUnexpectedEOF
        else .error e := by
  constructor
  · intro he
    simp only [Conn.Recv, he]
  · intro h pre tail hrd hdec hge hsplit hef hlt herr
    rw [Recv_after_header ic h hrd hdec hge, hsplit,
      ReadFull_error_at pre tail (h.Length.val - HeaderSize) e hef hlt herr]
    split_ifs <;> rfl

theorem Recv_stream_error_witness :
    (Conn.Recv ⟨⟨[⟨[1, 0, 0, 0], some (Error.other 9)⟩], [], []⟩, 7⟩).1
        = .error (Error.other 9) ∧
      (Conn.Recv ⟨⟨[⟨[1, 0, 0, 0, 19, 0, 0, 0, 0, 0, 0, 0, 42, 0, 0, 0], none⟩,
          ⟨[0xAA], none⟩, ⟨[0xBB], some (Error.other 9)⟩], [], []⟩, 7⟩).1
        = .error (Error.other 9) :=
  ⟨(Recv_stream_error ⟨⟨[⟨[1, 0, 0, 0], some (Error.other 9)⟩], [], []⟩, 7⟩ (Error.other 9)).1
      rfl,
    (Recv_stream_error ⟨⟨[⟨[1, 0, 0, 0, 19, 0, 0, 0, 0, 0, 0, 0, 42, 0, 0, 0], none⟩,
          ⟨[0xAA], none⟩, ⟨[0xBB], some (Error.other 9)⟩], [], []⟩, 7⟩ (Error.other 9)).2
      ⟨1, 19, 0, 0, 42⟩ [⟨[0xAA], none⟩] [⟨[0xBB], some (Error.other 9)⟩]
      rfl (by decide) (by decide) rfl (by decide) (by decide) rfl⟩

/-- Claim C17, evaluated on streams whose first read yields 16 bytes that
declare `Length = 1` and `Length = 15`: the payload size `Length - HeaderSize`
is negative where the buffer is allocated and `Recv` aborts; with
`Length = 0` and `Length = 16` it returns the header and an empty payload. -/
theorem Recv_small_Length_aborts :
    UnmarshalHeader [7, 0, 0, 0, 1, 0, 0, 0, 0, 0, 0, 0, 42, 0, 0, 0] = .ok ⟨7, 1, 0, 0, 42⟩ ∧
      (Conn.Recv ⟨⟨[⟨[7, 0, 0, 0, 1, 0, 0, 0, 0, 0, 0, 0, 42, 0, 0, 0], none⟩], [], []⟩, 7⟩).1
        = .panic ∧
      (Conn.Recv ⟨⟨[⟨[7, 0, 0, 0, 15, 0, 0, 0, 0, 0, 0, 0, 42, 0, 0, 0], none⟩], [], []⟩, 7⟩).1
        = .panic ∧
      (Conn.Recv ⟨⟨[⟨[7, 0, 0, 0, 0, 0, 0, 0, 0, 0, 0, 0, 42, 0, 0, 0], none⟩], [], []⟩, 7⟩).1
        = .ok ⟨7, 0, 0, 0, 42⟩ [] ∧
      (Conn.Recv ⟨⟨[⟨[7, 0, 0, 0, 16, 0, 0, 0, 0, 0, 0, 0, 42, 0, 0, 0], none⟩], [], []⟩, 7⟩).1
        = .ok ⟨7, 16, 0, 0, 42⟩ [] := by
  decide

/-! ## Decoding any sixteen bytes -/

/-- Claim C13, decoding without validation: on at least `HeaderSize` bytes
`UnmarshalHeader` succeeds whatever the field values are; the fields are the
little-endian values of bytes 0..3, 4..5, 6..7, 8..11 and 12..15, and the
bytes after the first sixteen do not affect the result. -/
theorem UnmarshalHeader_no_validation (b : List Byte) (h : HeaderSize ≤ b.length) :
    ∃ hdr, UnmarshalHeader b = .ok hdr ∧
      hdr.Typ.val = leValue (slice b 0 4) ∧ hdr.Length.val = leValue (slice b 4 2) ∧
      hdr.Flags.val = leValue (slice b 6 2) ∧ hdr.PeerID.val = leValue (slice b 8 4) ∧
      hdr.PID.val = leValue (slice b 12 4) ∧
      ∀ t : List Byte, UnmarshalHeader (b.take HeaderSize ++ t) = .ok hdr := by
  have h0 : ¬ b.length = 0 := by simp only [HeaderSize] at h; omega
  have h1 : ¬ b.length < HeaderSize := by omega
  refine ⟨decodeHeader (b.take HeaderSize), ?_, ?_⟩
  · rw [UnmarshalHeader_eq, if_neg h0, if_neg h1]
  · obtain ⟨b0, b1, b2, b3, b4, b5, b6, b7, b8, b9, b10, b11, b12, b13, b14, b15, t, rfl⟩ :=
      exists_header_bytes b h
    refine ⟨?_, ?_, ?_, ?_, ?_, ?_⟩
    · simp only [decodeHeader, HeaderSize, slice, leValue, getUint32, List.take, List.drop,
        List.getD_cons_zero, List.getD_cons_succ]
      omega
    · simp [decodeHeader, HeaderSize, slice, leValue, getUint16]
    · simp [decodeHeader, HeaderSize, slice, leValue, getUint16]
    · simp only [decodeHeader, HeaderSize, slice, leValue, getUint32, List.take, List.drop,
        List.getD_cons_zero, List.getD_cons_succ]
      omega
    · simp only [decodeHeader, HeaderSize, slice, leValue, getUint32, List.take, List.drop,
        List.getD_cons_zero, List.getD_cons_succ]
      omega
    · intro t'
      rw [UnmarshalHeader_eq]
      simp [HeaderSize]

theorem UnmarshalHeader_no_validation_witness :
    HeaderSize ≤ ([1, 2, 3, 4, 255, 255, 0, 0, 0, 0, 0, 0, 42, 0, 0, 0, 9, 9] : List Byte).length ∧
      ∃ hdr, UnmarshalHeader [1, 2, 3, 4, 255, 255, 0, 0, 0, 0, 0, 0, 42, 0, 0, 0, 9, 9]
          = .ok hdr ∧ hdr.Length.val = 65535 :=
  ⟨by decide,
    match UnmarshalHeader_no_validation
      [1, 2, 3, 4, 255, 255, 0, 0, 0, 0, 0, 0, 42, 0, 0, 0, 9, 9] (by decide) with
    | ⟨hdr, h1, _, h2, _⟩ => ⟨hdr, h1, h2⟩⟩

/-- Claim C19, reverse round trip: every slice of exactly `HeaderSize` bytes
decodes to a header whose encoding is that slice. -/
theorem header_reverse_roundtrip (b : List Byte) (h : b.length = HeaderSize) :
    ∃ hdr, UnmarshalHeader b = .ok hdr ∧ hdr.Marshal = b := by
  obtain ⟨b0, b1, b2, b3, b4, b5, b6, b7, b8, b9, b10, b11, b12, b13, b14, b15, t, rfl⟩ :=
    exists_header_bytes b (by omega)
  have ht : t = [] := by
    simp only [List.length_cons, HeaderSize] at h
    exact List.length_eq_zero.mp (by omega)
  subst ht
  refine ⟨decodeHeader [b0, b1, b2, b3, b4, b5, b6, b7, b8, b9, b10, b11, b12, b13, b14, b15],
    ?_, ?_⟩
  · rw [UnmarshalHeader_eq]
    simp [HeaderSize]
  · simp only [Header.Marshal, decodeHeader, List.getD_cons_zero, List.getD_cons_succ,
      putUint32_get, putUint16_get]
    rfl

theorem header_reverse_roundtrip_witness :
    ([1, 2, 3, 4, 255, 255, 7, 0, 0, 9, 0, 0, 42, 0, 0, 200] : List Byte).length = HeaderSize ∧
      ∃ hdr, UnmarshalHeader [1, 2, 3, 4, 255, 255, 7, 0, 0, 9, 0, 0, 42, 0, 0, 200] = .ok hdr ∧
        hdr.Marshal = [1, 2, 3, 4, 255, 255, 7, 0, 0, 9, 0, 0, 42, 0, 0, 200] :=
  ⟨by decide,
    header_reverse_roundtrip [1, 2, 3, 4, 255, 255, 7, 0, 0, 9, 0, 0, 42, 0, 0, 200]
      (by decide)⟩

/-! ## Frames on the wire -/

/-- Claim C14, concrete frame: `Send` of type 1 with payload `AA BB` on a
connection with process id 42 writes the 18 bytes
`01 00 00 00 12 00 00 00 00 00 00 00 2A 00 00 00 AA BB`, and `Recv` on a
stream holding those bytes returns `Header{1, 18, 0, 0, 42}` and the payload
`AA BB`. -/
theorem concrete_frame :
    Conn.Send ⟨⟨[], [], []⟩, 42⟩ 1 0 0 [0xAA, 0xBB]
        = (none, ⟨⟨[], [], [[0x01, 0x00, 0x00, 0x00, 0x12, 0x00, 0x00, 0x00, 0x00, 0x00, 0x00,
            0x00, 0x2A, 0x00, 0x00, 0x00, 0xAA, 0xBB]]⟩, 42⟩) ∧
      (Conn.Recv ⟨⟨pipe [[0x01, 0x00, 0x00, 0x00, 0x12, 0x00, 0x00, 0x00, 0x00, 0x00, 0x00,
            0x00, 0x2A, 0x00, 0x00, 0x00, 0xAA, 0xBB]], [], []⟩, 7⟩).1
        = .ok ⟨1, 18, 0, 0, 42⟩ [0xAA, 0xBB] ∧
      (peerOf (Conn.Send ⟨⟨[], [], []⟩, 42⟩ 1 0 0 [0xAA, 0xBB]).2 7).Recv
        = (.ok ⟨1, 18, 0, 0, 42⟩ [0xAA, 0xBB], ⟨⟨[], [], []⟩, 7⟩) := by
  decide

/-- Claim C16, write errors: for an accepted payload `Send` returns exactly
what the stream's `Write` returns, the error `e` when the write fails with
`e` and `nil` when it succeeds. -/
theorem Send_write_error (ic : Conn) (typ : U32) (flags peerid : U16) (data : List Byte)
    (h : data.length ≤ MaxMessageSize) :
    (ic.Send typ flags peerid data).1
        = (Write ic.rwc (Header.Marshal ⟨typ, toU16 (HeaderSize + data.length), 0, 0, ic.pid⟩
            ++ data)).1 ∧
      (∀ e, ic.rwc.nextWrite = some e → (ic.Send typ flags peerid data).1 = some e) ∧
      (ic.rwc.nextWrite = none → (ic.Send typ flags peerid data).1 = none) := by
  rw [Send_accept ic typ flags peerid data h]
  exact ⟨rfl, fun e he => he, fun he => he⟩

theorem Send_write_error_witness :
    ([7, 8, 9] : List Byte).length ≤ MaxMessageSize ∧
      (Conn.Send ⟨⟨[], [some (Error.other 5), none], []⟩, 42⟩ 1 0 0 [7, 8, 9]).1
        = some (Error.other 5) ∧
      (Conn.Send ⟨⟨[], [none, some (Error.other 5)], []⟩, 42⟩ 1 0 0 [7, 8, 9]).1 = none :=
  ⟨by decide,
    (Send_write_error ⟨⟨[], [some (Error.other 5), none], []⟩, 42⟩ 1 0 0 [7, 8, 9]
      (by decide)).2.1 _ rfl,
    (Send_write_error ⟨⟨[], [none, some (Error.other 5)], []⟩, 42⟩ 1 0 0 [7, 8, 9]
      (by decide)).2.2 rfl⟩

/-- Claim C18, framing keeps frames separate and in order: after successful
sends of messages with payloads of at most `MaxMessageSize` bytes onto an
initially empty reliable stream, as many `Recv` calls on the peer succeed and
return the payloads in order, each call taking exactly `HeaderSize` plus the
payload length bytes from the stream, and the stream is empty after the
last. -/
theorem framing_in_order (ic : Conn) (msgs : List Msg) (pid : U32)
    (hall : ∀ m ∈ msgs, m.data.length ≤ MaxMessageSize) (hempty : ic.rwc.written = [])
    (hw : ∀ r ∈ ic.rwc.wres, r = none) :
    (sendAll ic msgs).1 = msgs.map (fun _ => none) ∧
      (recvAll msgs.length (peerOf (sendAll ic msgs).2 pid)).1
        = msgs.map (fun m => (RecvResult.ok (sentHeader ic.pid m) m.data,
            HeaderSize + m.data.length)) ∧
      (recvAll msgs.length (peerOf (sendAll ic msgs).2 pid)).2.rwc.rd = [] := by
  obtain ⟨a, b, _⟩ := sendAll_ok msgs ic hall hw
  rw [hempty, List.nil_append] at b
  obtain ⟨c, d⟩ := recvAll_frames ic.pid msgs (peerOf (sendAll ic msgs).2 pid) hall
    (by simp only [peerOf, pipe, b])
  exact ⟨a, c, d⟩

theorem framing_in_order_witness :
    (∀ m ∈ ([⟨1, 0, 0, [0xAA]⟩, ⟨2, 3, 4, []⟩, ⟨3, 0, 0, [1, 2]⟩] : List Msg),
        m.data.length ≤ MaxMessageSize) ∧
      (recvAll 3 (peerOf (sendAll ⟨⟨[], [], []⟩, 42⟩
          [⟨1, 0, 0, [0xAA]⟩, ⟨2, 3, 4, []⟩, ⟨3, 0, 0, [1, 2]⟩]).2 7)).1
        = [(.ok ⟨1, 17, 0, 0, 42⟩ [0xAA], 17), (.ok ⟨2, 16, 0, 0, 42⟩ [], 16),
            (.ok ⟨3, 18, 0, 0, 42⟩ [1, 2], 18)] :=
  ⟨by decide,
    (framing_in_order ⟨⟨[], [], []⟩, 42⟩ [⟨1, 0, 0, [0xAA]⟩, ⟨2, 3, 4, []⟩, ⟨3, 0, 0, [1, 2]⟩] 7
      (by decide) rfl (by decide)).2.1⟩

end Imsg
